import Mathlib

/-!
Verification development for the Notty repository: the block-type classifier
(`detectHeaderMarkdown` in `ParagraphBlock`), the block-list editor operations
of the frontend `NoteEditor`, the recursive `updateBlockInDocument` of the
frontend design plan, and the in-memory Go backend handlers of
`backend/handlers/note.go`.
-/

namespace Notty

/-! ## Block-type classifier

`detectHeaderMarkdown` (src/frontend/src/components/features/NoteEditor.tsx,
`ParagraphBlock`): it trims the input with JavaScript `String.prototype.trim`
and matches the trimmed text against the regular expression
`^(#{1,6})\s+(.+)$`.  We embed strings as `List Char` and model the
JavaScript regex semantics exactly: `\s` matches the JS whitespace class,
`.` matches every character except a line terminator, and `\s+` is greedy
with backtracking (longest whitespace run first). -/

/-- The JavaScript `\s` class and `trim` whitespace set (WhiteSpace plus
LineTerminator code points), by code point. -/
def isJsWs (c : Char) : Bool :=
  let n := c.toNat
  n = 0x20 || n = 0x09 || n = 0x0A || n = 0x0B || n = 0x0C || n = 0x0D ||
  n = 0xA0 || n = 0x1680 || (0x2000 ≤ n && n ≤ 0x200A) ||
  n = 0x2028 || n = 0x2029 || n = 0x202F || n = 0x205F || n = 0x3000 ||
  n = 0xFEFF

/-- JavaScript line terminators: code points the regex metacharacter `.`
does not match. -/
def isLineTerminator (c : Char) : Bool :=
  let n := c.toNat
  n = 0x0A || n = 0x0D || n = 0x2028 || n = 0x2029

/-- JavaScript `String.prototype.trim`: drop leading and trailing
whitespace. -/
def jsTrim (s : List Char) : List Char :=
  ((s.dropWhile isJsWs).reverse.dropWhile isJsWs).reverse

/-- Greedy matching of the regex tail `\s+(.+)$` against `t`, having already
committed to a whitespace run of length at most `j`: try the longest run
first and backtrack to shorter ones, exactly as the JS engine does.  Returns
the text captured by `(.+)`: it must be non-empty and free of line
terminators. -/
def tailSearch (t : List Char) : Nat → Option (List Char)
  | 0 => none
  | j + 1 =>
      if !(t.drop (j + 1)).isEmpty && (t.drop (j + 1)).all (fun c => !isLineTerminator c)
      then some (t.drop (j + 1))
      else tailSearch t j

/-- Matching of `^(#{1,6})\s+(.+)$` against a whole string, JS semantics.
`#{1,6}` can only succeed on the full leading run of `'#'` characters (a
shorter prefix leaves a `'#'` where `\s` is required), so the run length
must be between 1 and 6; then `\s+(.+)$` is matched greedily against the
rest.  Returns `(count of leading hashes, capture of the second group)`. -/
def headerRegexMatch (s : List Char) : Option (Nat × List Char) :=
  if 1 ≤ (s.takeWhile (· = '#')).length ∧ (s.takeWhile (· = '#')).length ≤ 6 then
    (tailSearch (s.drop (s.takeWhile (· = '#')).length)
      ((s.drop (s.takeWhile (· = '#')).length).takeWhile isJsWs).length).map
      (fun r => ((s.takeWhile (· = '#')).length, r))
  else none

/-- `detectHeaderMarkdown` from `ParagraphBlock`: trim the committed text,
then match it against `^(#{1,6})\s+(.+)$`.  `some (level, content)` stands
for `{isHeader: true, level, content}`; `none` for `{isHeader: false}`. -/
def detectHeaderMarkdown (s : String) : Option (Nat × String) :=
  (headerRegexMatch (jsTrim s.data)).map (fun kr => (kr.1, String.mk kr.2))

example : detectHeaderMarkdown "# Hello" = some (1, "Hello") := by decide
example : detectHeaderMarkdown "### Deep" = some (3, "Deep") := by decide
example : detectHeaderMarkdown "plain text" = none := by decide
example : detectHeaderMarkdown "#NoSpace" = none := by decide
example : detectHeaderMarkdown "  # Hello" = some (1, "Hello") := by decide
example : headerRegexMatch "  # Hello".data = none := by decide
example : detectHeaderMarkdown "####### seven" = none := by decide

/-! ### Classifier lemmas -/

/-- The first element surviving `dropWhile p` falsifies `p`. -/
theorem head_dropWhile_false {α : Type} (p : α → Bool) :
    ∀ (l : List α) (a : α), (l.dropWhile p).head? = some a → p a = false := by
  intro l
  induction l with
  | nil => intro a h; simp [List.dropWhile] at h
  | cons x xs ih =>
      intro a h
      by_cases hx : p x
      · rw [List.dropWhile_cons_of_pos hx] at h
        exact ih a h
      · rw [List.dropWhile_cons_of_neg hx] at h
        simp at h
        rw [← h]
        exact Bool.eq_false_iff.mpr hx

/-- `dropWhile` is `drop` by the length of the matching prefix. -/
theorem dropWhile_eq_drop_len {α : Type} (p : α → Bool) :
    ∀ l : List α, l.dropWhile p = l.drop (l.takeWhile p).length := by
  intro l
  induction l with
  | nil => rfl
  | cons x xs ih =>
      by_cases hx : p x
      · rw [List.dropWhile_cons_of_pos hx, List.takeWhile_cons_of_pos hx]
        simpa using ih
      · rw [List.dropWhile_cons_of_neg hx, List.takeWhile_cons_of_neg hx]
        rfl

/-- `takeWhile` walks through a prefix whose members all satisfy `p`. -/
theorem takeWhile_append_all {α : Type} (p : α → Bool) :
    ∀ (l₁ l₂ : List α), (∀ x ∈ l₁, p x = true) →
      (l₁ ++ l₂).takeWhile p = l₁ ++ l₂.takeWhile p := by
  intro l₁
  induction l₁ with
  | nil => intro l₂ _; rfl
  | cons x xs ih =>
      intro l₂ h
      have hx : p x = true := h x (by simp)
      rw [List.cons_append, List.takeWhile_cons_of_pos hx, ih l₂ (fun y hy => h y (by simp [hy]))]
      rfl

/-- A trimmed string has no trailing whitespace. -/
theorem jsTrim_no_trailing (s : List Char) :
    ∀ a ∈ (jsTrim s).reverse.head?, isJsWs a = false := by
  intro a ha
  simp only [jsTrim, List.reverse_reverse] at ha
  exact head_dropWhile_false isJsWs _ a ha

/-- The hash character is not JavaScript whitespace. -/
theorem hash_not_ws : isJsWs '#' = false := by decide

/-- If the text after the committed whitespace run contains a line
terminator, the greedy tail search fails for every backtracking budget up
to the run length. -/
theorem tailSearch_none_of_lineTerm (t : List Char) (m : Nat)
    (hx : ∃ x ∈ t.drop m, isLineTerminator x = true) :
    ∀ j, j ≤ m → tailSearch t j = none := by
  intro j
  induction j with
  | zero => intro _; rfl
  | succ j ih =>
      intro hj
      obtain ⟨x, hxm, hxt⟩ := hx
      have hsuff : t.drop m <:+ t.drop (j + 1) := by
        have : (t.drop (j + 1)).drop (m - (j + 1)) = t.drop m := by
          rw [List.drop_drop]
          congr 1
          omega
        rw [← this]
        exact List.drop_suffix _ _
      have hxj : x ∈ t.drop (j + 1) := hsuff.subset hxm
      have hall : (t.drop (j + 1)).all (fun c => !isLineTerminator c) = false := by
        rw [List.all_eq_false]
        exact ⟨x, hxj, by simp [hxt]⟩
      rw [tailSearch, if_neg (by simp [hall])]
      exact ih (by omega)

/-- On input with no trailing whitespace (which the trim guarantees), the
greedy tail search succeeds exactly when the whitespace run is non-empty
and the remainder carries no line terminator, and then it captures exactly
the remainder after the whitespace run. -/
theorem tailSearch_spec (t : List Char)
    (hnt : ∀ a ∈ t.reverse.head?, isJsWs a = false) (r : List Char) :
    tailSearch t (t.takeWhile isJsWs).length = some r ↔
      1 ≤ (t.takeWhile isJsWs).length ∧ r = t.dropWhile isJsWs ∧ r ≠ [] ∧
        (∀ x ∈ r, isLineTerminator x = false) := by
  rcases ht : t with _ | ⟨b, t'⟩
  · simp [tailSearch]
  rw [← ht]
  have htne : t ≠ [] := by rw [ht]; simp
  -- the matching whitespace prefix is proper: the last element is not ws
  have hlast : ¬ isJsWs (t.getLast htne) := by
    have : t.reverse.head? = some (t.getLast htne) := by
      rw [List.head?_reverse]
      exact List.getLast?_eq_getLast t htne
    have := hnt (t.getLast htne) (by rw [this]; rfl)
    simp [this]
  have hmlt : (t.takeWhile isJsWs).length < t.length := by
    by_contra hge
    have hle : t.length ≤ (t.takeWhile isJsWs).length := by omega
    have htw : t.takeWhile isJsWs = t :=
      (List.takeWhile_sublist _).eq_of_length_le hle
    have : isJsWs (t.getLast htne) = true := by
      apply List.mem_takeWhile_imp (l := t) (p := isJsWs)
      rw [htw]
      exact List.getLast_mem htne
    exact hlast this
  have hdrop : t.dropWhile isJsWs = t.drop (t.takeWhile isJsWs).length :=
    dropWhile_eq_drop_len isJsWs t
  have hdne : t.dropWhile isJsWs ≠ [] := by
    rw [hdrop]
    intro hnil
    have := List.drop_eq_nil_iff.mp hnil
    omega
  rcases hm : (t.takeWhile isJsWs).length with _ | j
  · rw [tailSearch]
    constructor
    · intro h; exact absurd h (by simp)
    · rintro ⟨h1, _⟩; omega
  · -- first try: the full whitespace run
    have hr0 : t.drop (j + 1) = t.dropWhile isJsWs := by rw [hdrop, hm]
    have hr0ne : ¬ (t.drop (j + 1)).isEmpty := by
      rw [hr0]
      simpa [List.isEmpty_iff] using hdne
    rcases hlt : (t.drop (j + 1)).all (fun c => !isLineTerminator c) with _ | _
    · -- a line terminator occurs after the whitespace run: every budget fails
      rw [List.all_eq_false] at hlt
      obtain ⟨x, hxm, hxb⟩ := hlt
      have hxt : isLineTerminator x = true := by
        revert hxb; cases isLineTerminator x <;> simp
      have hnone : tailSearch t (j + 1) = none :=
        tailSearch_none_of_lineTerm t (j + 1) ⟨x, hxm, hxt⟩ (j + 1) le_rfl
      rw [hnone]
      constructor
      · intro h; exact absurd h (by simp)
      · rintro ⟨-, hr, -, hnl⟩
        have : isLineTerminator x = false := hnl x (by rw [hr, ← hr0]; exact hxm)
        rw [this] at hxt
        exact absurd hxt (by simp)
    · -- no line terminator: the longest run wins immediately
      rw [tailSearch, if_pos (by simp [hr0ne, hlt])]
      constructor
      · intro h
        have hr : r = t.drop (j + 1) := (Option.some.inj h).symm
        exact ⟨by omega, by rw [hr, hr0], by
            rw [hr, hr0]; exact hdne, by
          intro x hx
          have := List.all_eq_true.mp hlt x (by rw [← hr]; exact hx)
          simpa using this⟩
      · rintro ⟨-, hr, -, -⟩
        rw [hr, hr0]

/-- A non-empty prefix determines the head of the longer list. -/
theorem head?_of_prefix {α : Type} {p q : List α} (h : p <+: q) (hne : p ≠ []) :
    q.head? = p.head? := by
  obtain ⟨rest, rfl⟩ := h
  cases p with
  | nil => exact absurd rfl hne
  | cons a t => rfl

/-- A suffix of a trimmed string still has no trailing whitespace. -/
theorem suffix_no_trailing {t T : List Char} (h : t <:+ T)
    (hnt : ∀ a ∈ T.reverse.head?, isJsWs a = false) :
    ∀ a ∈ t.reverse.head?, isJsWs a = false := by
  intro a ha
  rcases eq_or_ne t [] with rfl | htne
  · simp at ha
  · have hpre : t.reverse <+: T.reverse := List.reverse_prefix.mpr h
    have : T.reverse.head? = t.reverse.head? :=
      head?_of_prefix hpre (by simpa using htne)
    exact hnt a (by rw [this]; exact ha)

/-- The leading-hash run of the string is literally `replicate k '#'`. -/
theorem takeWhile_hash_eq_replicate (T : List Char) :
    T.takeWhile (· = '#') = List.replicate (T.takeWhile (· = '#')).length '#' := by
  rw [List.eq_replicate_iff]
  exact ⟨rfl, fun b hb => by simpa using List.mem_takeWhile_imp hb⟩

/-- C1.  The claim reads the classifier as deciding the regex
`^(#{1,6})\s+(.+)$` on the raw input; the code decides it on the *trimmed*
input.  On `"  # Hello"` the raw string does not match the regex (it does
not start with `'#'`), yet `detectHeaderMarkdown` recognizes a level-1
heading, so "returns a heading result exactly when s matches the regex"
is false, as is "for every other string it returns None". -/
theorem detectHeaderMarkdown_trims_counterexample :
    detectHeaderMarkdown "  # Hello" = some (1, "Hello") ∧
      headerRegexMatch "  # Hello".data = none := by
  constructor <;> decide

/-- The regex matcher, characterized declaratively on strings with no
trailing whitespace (which is what the trim feeds it): it succeeds exactly
on `hashes ++ whitespace ++ remainder` decompositions. -/
theorem headerRegexMatch_some_iff (T : List Char)
    (hnT : ∀ x ∈ T.reverse.head?, isJsWs x = false) (k : Nat) (rl : List Char) :
    headerRegexMatch T = some (k, rl) ↔
      ∃ w a r, rl = a :: r ∧ T = List.replicate k '#' ++ w ++ (a :: r) ∧
        1 ≤ k ∧ k ≤ 6 ∧
        w ≠ [] ∧ (∀ x ∈ w, isJsWs x = true) ∧
        isJsWs a = false ∧ (∀ x ∈ a :: r, isLineTerminator x = false) := by
  constructor
  · intro h
    rw [headerRegexMatch] at h
    by_cases hk : 1 ≤ (T.takeWhile (· = '#')).length ∧ (T.takeWhile (· = '#')).length ≤ 6
    swap
    · rw [if_neg hk] at h; exact absurd h (by simp)
    rw [if_pos hk, Option.map_eq_some'] at h
    obtain ⟨r₀, hts, hkr⟩ := h
    have hkk : (T.takeWhile (· = '#')).length = k := congrArg Prod.fst hkr
    have hrl : r₀ = rl := congrArg Prod.snd hkr
    subst hrl
    subst hkk
    have hntt : ∀ x ∈ (T.drop (T.takeWhile (· = '#')).length).reverse.head?, isJsWs x = false :=
      suffix_no_trailing (List.drop_suffix _ _) hnT
    obtain ⟨hm1, hr₀, hr₀ne, hnl⟩ := (tailSearch_spec _ hntt r₀).mp hts
    obtain ⟨a, r', rfl⟩ : ∃ a r', r₀ = a :: r' := by
      cases r₀ with
      | nil => exact absurd rfl hr₀ne
      | cons a r' => exact ⟨a, r', rfl⟩
    refine ⟨(T.drop (T.takeWhile (· = '#')).length).takeWhile isJsWs, a, r', rfl, ?_,
      hk.1, hk.2, ?_, fun x hx => List.mem_takeWhile_imp hx, ?_, hnl⟩
    · conv_lhs => rw [← List.takeWhile_append_dropWhile (p := (· = '#')) (l := T)]
      rw [List.append_assoc]
      congr 1
      · exact takeWhile_hash_eq_replicate T
      · rw [dropWhile_eq_drop_len]
        conv_lhs =>
          rw [← List.takeWhile_append_dropWhile
            (p := isJsWs) (l := T.drop (T.takeWhile (· = '#')).length)]
        rw [hr₀]
    · intro hempty
      rw [hempty] at hm1
      simp at hm1
    · exact head_dropWhile_false isJsWs _ a (by rw [← hr₀]; rfl)
  · rintro ⟨w, a, r, hrl, hTeq, hk1, hk6, hwne, hwall, ha, hnl⟩
    obtain ⟨b, w', rfl⟩ : ∃ b w', w = b :: w' := by
      cases w with
      | nil => exact absurd rfl hwne
      | cons b w' => exact ⟨b, w', rfl⟩
    have hbws : isJsWs b = true := hwall b (by simp)
    have hbhash : ¬ (b = '#') := fun hb => by
      rw [hb, hash_not_ws] at hbws; exact absurd hbws (by simp)
    have htw : T.takeWhile (· = '#') = List.replicate k '#' := by
      rw [hTeq, List.append_assoc,
        takeWhile_append_all _ _ _ (fun x hx => by simp [List.eq_of_mem_replicate hx]),
        List.cons_append, List.takeWhile_cons_of_neg (by simp [hbhash])]
      simp
    have hklen : (T.takeWhile (· = '#')).length = k := by
      rw [htw, List.length_replicate]
    have htdrop : T.drop (T.takeWhile (· = '#')).length = (b :: w') ++ (a :: r) := by
      rw [hklen, hTeq, List.append_assoc]
      exact List.drop_left' (List.length_replicate k '#')
    have htws : ((b :: w') ++ (a :: r)).takeWhile isJsWs = b :: w' := by
      rw [takeWhile_append_all _ _ _ hwall, List.takeWhile_cons_of_neg (by simp [ha])]
      simp
    have hdw : ((b :: w') ++ (a :: r) : List Char).dropWhile isJsWs = a :: r := by
      rw [dropWhile_eq_drop_len, htws, List.drop_left]
    have htnt : ∀ x ∈ ((b :: w') ++ (a :: r) : List Char).reverse.head?, isJsWs x = false :=
      suffix_no_trailing (htdrop ▸ List.drop_suffix _ _) hnT
    have hts : tailSearch ((b :: w') ++ (a :: r))
        (((b :: w') ++ (a :: r)).takeWhile isJsWs).length = some (a :: r) := by
      rw [tailSearch_spec _ htnt]
      exact ⟨by rw [htws]; simp, hdw.symm, by simp, hnl⟩
    rw [headerRegexMatch, if_pos (by rw [hklen]; exact ⟨hk1, hk6⟩), htdrop, hts]
    simp [hklen, hrl]

/-- C1 (amended): `detectHeaderMarkdown` is total and returns a heading
result exactly when the JS-*trimmed* input matches `^(#{1,6})\s+(.+)$`,
with the level equal to the count of leading hashes of the trimmed text
and the content the remainder after the required whitespace. -/
theorem detectHeaderMarkdown_eq_some_iff (s : String) (k : Nat) (c : String) :
    detectHeaderMarkdown s = some (k, c) ↔
      ∃ w a r, c = String.mk (a :: r) ∧
        jsTrim s.data = List.replicate k '#' ++ w ++ (a :: r) ∧
        1 ≤ k ∧ k ≤ 6 ∧
        w ≠ [] ∧ (∀ x ∈ w, isJsWs x = true) ∧
        isJsWs a = false ∧ (∀ x ∈ a :: r, isLineTerminator x = false) := by
  rw [detectHeaderMarkdown]
  constructor
  · intro h
    rw [Option.map_eq_some'] at h
    obtain ⟨⟨k', rl⟩, hmatch, hpair⟩ := h
    have hk' : k' = k := congrArg Prod.fst hpair
    have hc : String.mk rl = c := congrArg Prod.snd hpair
    subst hk'
    obtain ⟨w, a, r, hrl, hrest⟩ :=
      (headerRegexMatch_some_iff _ (jsTrim_no_trailing s.data) k' rl).mp hmatch
    exact ⟨w, a, r, by rw [← hc, hrl], hrest⟩
  · rintro ⟨w, a, r, hc, hrest⟩
    have : headerRegexMatch (jsTrim s.data) = some (k, a :: r) :=
      (headerRegexMatch_some_iff _ (jsTrim_no_trailing s.data) k (a :: r)).mpr
        ⟨w, a, r, rfl, hrest⟩
    rw [this, Option.map_some']
    simp [hc]

/-! ## Frontend editor state operations

`NoteEditor` (src/unnamed/part_002) keeps a `Note` whose `document` is a flat
list of blocks (`src/frontend/src/types/Note.ts`: `id`, `type`, `content`,
plus `level` on header blocks).  Each operation rebuilds the note with a new
`document` and `updatedAt: new Date()`; the clock and the generated block id
are passed as parameters. -/

/-- A block of `types/Note.ts`: `HeaderBlock` extends `Block` with `level`,
absent on the other variants. -/
structure EBlock where
  id : String
  type : String
  content : String
  level : Option Nat
deriving Repr, DecidableEq

/-- The `Note` of `types/Note.ts`. -/
structure ENote where
  id : String
  title : String
  userId : String
  createdAt : Nat
  updatedAt : Nat
  document : List EBlock
deriving Repr, DecidableEq

/-- Document part of `updateBlock`: map, replacing the content of the
matching block. -/
def updateBlockDoc (doc : List EBlock) (blockId newContent : String) : List EBlock :=
  doc.map fun b => if b.id = blockId then { b with content := newContent } else b

/-- Document part of `convertToHeader`: map, retyping the matching block to
`header` with the given level and content. -/
def convertToHeaderDoc (doc : List EBlock) (blockId : String) (level : Nat)
    (content : String) : List EBlock :=
  doc.map fun b =>
    if b.id = blockId then { b with type := "header", content := content, level := some level }
    else b

/-- Document part of `addBlockAfter`: `findIndex` (−1 when the id does not
occur) followed by `splice(blockIndex + 1, 0, newBlock)`. -/
def addBlockAfterDoc (doc : List EBlock) (afterBlockId : String) (newBlock : EBlock) :
    List EBlock :=
  let blockIndex : Int :=
    match doc.findIdx? (fun b => b.id == afterBlockId) with
    | some n => (n : Int)
    | none => -1
  doc.insertIdx (blockIndex + 1).toNat newBlock

/-- Document part of `deleteBlock`: keep the blocks whose id differs. -/
def deleteBlockDoc (doc : List EBlock) (blockId : String) : List EBlock :=
  doc.filter fun b => b.id != blockId

/-- `updateBlock` of `NoteEditor`. -/
def updateBlockNote (note : ENote) (blockId newContent : String) (now : Nat) : ENote :=
  { note with document := updateBlockDoc note.document blockId newContent, updatedAt := now }

/-- `convertToHeader` of `NoteEditor`. -/
def convertToHeaderNote (note : ENote) (blockId : String) (level : Nat) (content : String)
    (now : Nat) : ENote :=
  { note with
    document := convertToHeaderDoc note.document blockId level content,
    updatedAt := now }

/-- `addBlockAfter` of `NoteEditor`: the new block is an empty paragraph
with a generated id. -/
def addBlockAfterNote (note : ENote) (afterBlockId newId : String) (now : Nat) : ENote :=
  { note with
    document := addBlockAfterDoc note.document afterBlockId ⟨newId, "paragraph", "", none⟩,
    updatedAt := now }

/-- `deleteBlock` of `NoteEditor`. -/
def deleteBlockNote (note : ENote) (blockId : String) (now : Nat) : ENote :=
  { note with document := deleteBlockDoc note.document blockId, updatedAt := now }

/-- `addBlockAtEnd` of `NoteEditor`: appends an empty paragraph with a
generated id. -/
def addBlockAtEndNote (note : ENote) (newId : String) (now : Nat) : ENote :=
  { note with
    document := note.document ++ [⟨newId, "paragraph", "", none⟩],
    updatedAt := now }

/-! ### C2: unresolved `afterId` -/

/-- C2.  The claim says that when `afterId` resolves to no block the new
block is appended at the end of the top-level document.  In the code,
`findIndex` returns −1 and `splice(-1 + 1, 0, newBlock)` inserts at index
0: the block is *prepended*.  On the two-block document `[a, b]` with the
unresolvable id `"zz"` the result is `[n, a, b]`, not `[a, b, n]`. -/
theorem addBlockAfter_unresolved_counterexample :
    addBlockAfterDoc
        [⟨"a", "paragraph", "first", none⟩, ⟨"b", "paragraph", "second", none⟩] "zz"
        ⟨"n", "paragraph", "", none⟩ =
      [⟨"n", "paragraph", "", none⟩, ⟨"a", "paragraph", "first", none⟩,
        ⟨"b", "paragraph", "second", none⟩] ∧
    addBlockAfterDoc
        [⟨"a", "paragraph", "first", none⟩, ⟨"b", "paragraph", "second", none⟩] "zz"
        ⟨"n", "paragraph", "", none⟩ ≠
      [⟨"a", "paragraph", "first", none⟩, ⟨"b", "paragraph", "second", none⟩] ++
        [⟨"n", "paragraph", "", none⟩] := by
  constructor <;> decide

/-- C2 (amended): when `afterId` resolves to no block of the document,
`addBlockAfter` inserts the new block at the *beginning* of the top-level
document (index 0); it never fails. -/
theorem addBlockAfter_unresolved_prepends (doc : List EBlock) (afterId : String)
    (nb : EBlock) (h : ∀ c ∈ doc, c.id ≠ afterId) :
    addBlockAfterDoc doc afterId nb = nb :: doc := by
  rw [addBlockAfterDoc]
  have hfind : doc.findIdx? (fun b => b.id == afterId) = none := by
    rw [List.findIdx?_eq_none_iff]
    intro c hc
    simpa using h c hc
  rw [hfind]
  simp [List.insertIdx]

/-- Witness for C2 (amended) at a concrete document. -/
theorem addBlockAfter_unresolved_prepends_witness :
    (∀ c ∈ [(⟨"a", "paragraph", "x", none⟩ : EBlock)], c.id ≠ "zz") ∧
      addBlockAfterDoc [⟨"a", "paragraph", "x", none⟩] "zz" ⟨"n", "paragraph", "", none⟩ =
        ⟨"n", "paragraph", "", none⟩ :: [⟨"a", "paragraph", "x", none⟩] :=
  ⟨by decide, addBlockAfter_unresolved_prepends _ _ _ (by decide)⟩

/-! ### C3: delete never re-fills the document -/

/-- C3.  The claim says deleting the sole remaining top-level block leaves a
document of exactly one default empty paragraph; `deleteBlock` only filters,
so the document becomes empty. -/
theorem deleteBlock_sole_block_counterexample :
    (deleteBlockNote
        ⟨"1", "My Note", "user1", 0, 0, [⟨"x", "paragraph", "", none⟩]⟩ "x" 5).document =
      [] := by
  decide

/-- C3 (amended): `deleteBlock` removes every top-level block whose id
matches and re-stamps `updatedAt`; no default paragraph is re-inserted, so
deleting the sole remaining block leaves an empty document. -/
theorem deleteBlock_filters (note : ENote) (blockId : String) (now : Nat) :
    (deleteBlockNote note blockId now).document =
      note.document.filter (fun b => b.id != blockId) ∧
    (deleteBlockNote note blockId now).updatedAt = now := by
  constructor <;> rfl

/-! ### C5: insert/delete round-trip -/

/-- Inserting an element that the filter rejects commutes away. -/
theorem filter_insertIdx_of_neg {α : Type} (p : α → Bool) (a : α) (ha : p a = false) :
    ∀ (n : Nat) (l : List α), (l.insertIdx n a).filter p = l.filter p := by
  intro n
  induction n with
  | zero =>
      intro l
      rw [List.insertIdx_zero, List.filter_cons, ha]
      simp
  | succ n ih =>
      intro l
      cases l with
      | nil => rfl
      | cons x xs =>
          rw [List.insertIdx_succ_cons, List.filter_cons, List.filter_cons, ih]

/-- C5: for a block whose id occurs nowhere in the document, deleting it
right after inserting it restores the original document. -/
theorem insertAfter_delete_roundtrip (doc : List EBlock) (x : String) (b : EBlock)
    (h : ∀ c ∈ doc, c.id ≠ b.id) :
    deleteBlockDoc (addBlockAfterDoc doc x b) b.id = doc := by
  rw [deleteBlockDoc, addBlockAfterDoc, filter_insertIdx_of_neg _ _ (by simp)]
  rw [List.filter_eq_self]
  intro c hc
  simpa using h c hc

/-- Witness for C5 at a concrete document and unresolved `afterId`. -/
theorem insertAfter_delete_roundtrip_witness :
    (∀ c ∈ [(⟨"a", "paragraph", "hi", none⟩ : EBlock)], c.id ≠ "b") ∧
      deleteBlockDoc
          (addBlockAfterDoc [⟨"a", "paragraph", "hi", none⟩] "a" ⟨"b", "paragraph", "", none⟩)
          "b" =
        [⟨"a", "paragraph", "hi", none⟩] :=
  ⟨by decide, insertAfter_delete_roundtrip _ _ _ (by decide)⟩

/-! ### C7: every editor mutation stamps `updatedAt` and keeps identity -/

/-- C7: each of the five `NoteEditor` mutations (content update, header
conversion, insert-after, delete, append) sets `updatedAt` to the mutation
time and preserves `id`, `userId` (the owner) and `createdAt`. -/
theorem editor_mutations_stamp (note : ENote) (bid content newId afterId : String)
    (level : Nat) (now : Nat) :
    ((updateBlockNote note bid content now).updatedAt = now ∧
      (updateBlockNote note bid content now).id = note.id ∧
      (updateBlockNote note bid content now).userId = note.userId ∧
      (updateBlockNote note bid content now).createdAt = note.createdAt) ∧
    ((convertToHeaderNote note bid level content now).updatedAt = now ∧
      (convertToHeaderNote note bid level content now).id = note.id ∧
      (convertToHeaderNote note bid level content now).userId = note.userId ∧
      (convertToHeaderNote note bid level content now).createdAt = note.createdAt) ∧
    ((addBlockAfterNote note afterId newId now).updatedAt = now ∧
      (addBlockAfterNote note afterId newId now).id = note.id ∧
      (addBlockAfterNote note afterId newId now).userId = note.userId ∧
      (addBlockAfterNote note afterId newId now).createdAt = note.createdAt) ∧
    ((deleteBlockNote note bid now).updatedAt = now ∧
      (deleteBlockNote note bid now).id = note.id ∧
      (deleteBlockNote note bid now).userId = note.userId ∧
      (deleteBlockNote note bid now).createdAt = note.createdAt) ∧
    ((addBlockAtEndNote note newId now).updatedAt = now ∧
      (addBlockAtEndNote note newId now).id = note.id ∧
      (addBlockAtEndNote note newId now).userId = note.userId ∧
      (addBlockAtEndNote note newId now).createdAt = note.createdAt) := by
  refine ⟨⟨rfl, rfl, rfl, rfl⟩, ⟨rfl, rfl, rfl, rfl⟩, ⟨rfl, rfl, rfl, rfl⟩,
    ⟨rfl, rfl, rfl, rfl⟩, ⟨rfl, rfl, rfl, rfl⟩⟩

/-! ## Recursive document tree

The design plan (src/unnamed/part_001) defines `Block` with optional
`metadata` and recursively nested `children`, and the nested update
`updateBlockInDocument`.  A JS block without a `children` key behaves in
`updateBlockInDocument` exactly like one with `children: []` (recursing into
an empty array rebuilds an equal block), so children are embedded as a plain
list. -/

/-- `BlockMetadata` of the design plan: the type-specific attribute
record. -/
structure BlockMetadata where
  level : Option Nat
  checked : Option Bool
  indent : Option Nat
deriving Repr, DecidableEq

/-- `Block` of the design plan: id, type tag, content, optional metadata,
nested children. -/
inductive Block where
  | mk (id : String) (type : String) (content : String)
       (metadata : Option BlockMetadata) (children : List Block)

def Block.id : Block → String
  | .mk i _ _ _ _ => i

def Block.type : Block → String
  | .mk _ t _ _ _ => t

def Block.content : Block → String
  | .mk _ _ c _ _ => c

def Block.metadata : Block → Option BlockMetadata
  | .mk _ _ _ m _ => m

def Block.children : Block → List Block
  | .mk _ _ _ _ ch => ch

/-- The partial update handed to `updateBlockInDocument` (`Partial<Block>`
restricted to the patchable fields content, type, metadata; `some` means the
key is present in the patch). -/
structure BlockPatch where
  content : Option String
  type : Option String
  metadata : Option BlockMetadata
deriving Repr, DecidableEq

/-- The JS spread `{...block, ...updates}`: a field present in the patch
wins; `id` and `children` are never in the patch. -/
def applyPatch (u : BlockPatch) : Block → Block
  | .mk i t c m ch =>
      .mk i (u.type.getD t) (u.content.getD c)
        (match u.metadata with
         | some m' => some m'
         | none => m) ch

/-- `updateBlockInDocument` of the design plan: map over the level; the
matching block receives the patch (its children are left alone), every
other block recurses into its children. -/
def updateBlockInDocument : List Block → String → BlockPatch → List Block
  | [], _, _ => []
  | .mk i t c m ch :: rest, targetId, u =>
      (if i = targetId then applyPatch u (Block.mk i t c m ch)
       else Block.mk i t c m (updateBlockInDocument ch targetId u))
        :: updateBlockInDocument rest targetId u

/-- Modelled from the spec: `findById` of the Document Tree Engine (§4.2),
which src only exercises implicitly — depth-first search in document order,
first match wins. -/
def findById : List Block → String → Option Block
  | [], _ => none
  | .mk i t c m ch :: rest, targetId =>
      if i = targetId then some (Block.mk i t c m ch)
      else
        match findById ch targetId with
        | some r => some r
        | none => findById rest targetId

/-- The id skeleton of a document: same list lengths, same order, same ids
at every nesting level. -/
inductive IdTree where
  | node (id : String) (children : List IdTree)

/-- The id skeletons of a document, level by level. -/
def idTrees : List Block → List IdTree
  | [] => []
  | .mk i _ _ _ ch :: rest => IdTree.node i (idTrees ch) :: idTrees rest

/-- The patchable fields of a block: `(type, content, metadata)`. -/
def bFields (b : Block) : String × String × Option BlockMetadata :=
  (b.type, b.content, b.metadata)

/-- The effect of the spread on the patchable fields. -/
def patchFields (u : BlockPatch) :
    String × String × Option BlockMetadata → String × String × Option BlockMetadata
  | (t, c, m) =>
      (u.type.getD t, u.content.getD c,
        match u.metadata with
        | some m' => some m'
        | none => m)

theorem bFields_applyPatch (u : BlockPatch) (b : Block) :
    bFields (applyPatch u b) = patchFields u (bFields b) := by
  cases b with
  | mk i t c m ch =>
      cases hm : u.metadata <;>
        simp [bFields, applyPatch, patchFields, Block.type, Block.content, Block.metadata, hm]

theorem applyPatch_id (u : BlockPatch) (b : Block) : (applyPatch u b).id = b.id := by
  cases b
  rfl

/-- `updateBlockInDocument` preserves the id skeleton at every level. -/
theorem idTrees_update (doc : List Block) (tid : String) (u : BlockPatch) :
    idTrees (updateBlockInDocument doc tid u) = idTrees doc := by
  induction doc, tid, u using updateBlockInDocument.induct with
  | case1 tid u => simp [updateBlockInDocument, idTrees]
  | case2 i t c m ch rest tid u ih1 ih2 =>
      by_cases hi : i = tid
      · simp [updateBlockInDocument, idTrees, hi, applyPatch, ih2]
      · simp [updateBlockInDocument, idTrees, hi, ih1, ih2]

/-- Away from the target id, lookup sees the same patchable fields before
and after the update. -/
theorem findById_update_of_ne (doc : List Block) (tid : String) (u : BlockPatch) :
    ∀ j, j ≠ tid →
      (findById (updateBlockInDocument doc tid u) j).map bFields =
        (findById doc j).map bFields := by
  induction doc, tid, u using updateBlockInDocument.induct with
  | case1 tid u => intro j _; simp [updateBlockInDocument]
  | case2 i t c m ch rest tid u ih1 ih2 =>
      intro j hj
      by_cases hi : i = tid
      · -- the head is the target: it is patched, its children left alone
        have hij : i ≠ j := fun h => hj (h ▸ hi)
        rw [updateBlockInDocument, if_pos hi]
        rw [applyPatch]
        rw [findById, findById, if_neg hij, if_neg hij]
        cases hch : findById ch j with
        | some r => simp [hch]
        | none => simp [hch, ih2 j hj]
      · rw [updateBlockInDocument, if_neg hi]
        rw [findById, findById]
        by_cases hij : i = j
        · rw [if_pos hij, if_pos hij]
          simp [bFields, Block.type, Block.content, Block.metadata]
        · rw [if_neg hij, if_neg hij]
          have hih1 := ih1 j hj
          cases hupd : findById (updateBlockInDocument ch tid u) j with
          | some r =>
              rw [hupd] at hih1
              cases hch : findById ch j with
              | some rr =>
                  rw [hch] at hih1
                  simp only [Option.map_some'] at hih1
                  simp [hih1]
              | none => rw [hch] at hih1; simp at hih1
          | none =>
              rw [hupd] at hih1
              cases hch : findById ch j with
              | some rr => rw [hch] at hih1; simp at hih1
              | none => simp [hch, ih2 j hj]

/-- At the target id, lookup sees exactly the patched fields. -/
theorem findById_update_self (doc : List Block) (tid : String) (u : BlockPatch) :
    (findById (updateBlockInDocument doc tid u) tid).map bFields =
      ((findById doc tid).map bFields).map (patchFields u) := by
  induction doc, tid, u using updateBlockInDocument.induct with
  | case1 tid u => simp [updateBlockInDocument, findById]
  | case2 i t c m ch rest tid u ih1 ih2 =>
      by_cases hi : i = tid
      · rw [updateBlockInDocument, if_pos hi]
        cases hb : applyPatch u (Block.mk i t c m ch) with
        | mk i2 t2 c2 m2 ch2 =>
            have hi2 : i2 = i := by
              have := applyPatch_id u (Block.mk i t c m ch)
              rw [hb] at this
              exact this
            rw [findById, findById, if_pos (hi2 ▸ hi), if_pos hi]
            have hbf := bFields_applyPatch u (Block.mk i t c m ch)
            rw [hb] at hbf
            simp [hbf]
      · rw [updateBlockInDocument, if_neg hi]
        rw [findById, findById, if_neg hi, if_neg hi]
        have hih1 := ih1
        cases hupd : findById (updateBlockInDocument ch tid u) tid with
        | some r =>
            rw [hupd] at hih1
            cases hch : findById ch tid with
            | some rr =>
                rw [hch] at hih1
                simp only [Option.map_some'] at hih1
                simp [hih1]
            | none => rw [hch] at hih1; simp at hih1
        | none =>
            rw [hupd] at hih1
            cases hch : findById ch tid with
            | some rr => rw [hch] at hih1; simp at hih1
            | none => simp [hch, ih2]

/-- An absent target makes the update a strict no-op. -/
theorem update_absent (doc : List Block) (tid : String) (u : BlockPatch) :
    findById doc tid = none → updateBlockInDocument doc tid u = doc := by
  induction doc, tid, u using updateBlockInDocument.induct with
  | case1 tid u => intro _; simp [updateBlockInDocument]
  | case2 i t c m ch rest tid u ih1 ih2 =>
      intro habs
      rw [findById] at habs
      by_cases hi : i = tid
      · rw [if_pos hi] at habs
        exact absurd habs (by simp)
      · rw [if_neg hi] at habs
        cases hch : findById ch tid with
        | some r => rw [hch] at habs; exact absurd habs (by simp)
        | none =>
            rw [hch] at habs
            rw [updateBlockInDocument, if_neg hi, ih1 hch, ih2 habs]

/-- C4: `updateById` keeps the number, order and ids of the blocks at every
nesting level; every block other than the target keeps its patchable fields
`(type, content, metadata)` unchanged; and when the target id is absent the
tree is returned unchanged. -/
theorem updateById_frame (doc : List Block) (tid : String) (u : BlockPatch) :
    idTrees (updateBlockInDocument doc tid u) = idTrees doc ∧
    (∀ j, j ≠ tid →
      (findById (updateBlockInDocument doc tid u) j).map bFields =
        (findById doc j).map bFields) ∧
    (findById doc tid = none → updateBlockInDocument doc tid u = doc) :=
  ⟨idTrees_update doc tid u, findById_update_of_ne doc tid u, update_absent doc tid u⟩

/-- Witness for C4 on a concrete two-level document, absent target id
`"z"` and the observer id `"b"`. -/
theorem updateById_frame_witness :
    (("b" : String) ≠ "z" ∧
      findById [Block.mk "a" "paragraph" "hi" none
        [Block.mk "b" "todo" "milk" (some ⟨none, some false, none⟩) []]] "z" = none) ∧
    (idTrees (updateBlockInDocument
        [Block.mk "a" "paragraph" "hi" none
          [Block.mk "b" "todo" "milk" (some ⟨none, some false, none⟩) []]] "z"
        ⟨some "new", none, none⟩) =
      idTrees [Block.mk "a" "paragraph" "hi" none
        [Block.mk "b" "todo" "milk" (some ⟨none, some false, none⟩) []]] ∧
    (findById (updateBlockInDocument
        [Block.mk "a" "paragraph" "hi" none
          [Block.mk "b" "todo" "milk" (some ⟨none, some false, none⟩) []]] "z"
        ⟨some "new", none, none⟩) "b").map bFields =
      (findById [Block.mk "a" "paragraph" "hi" none
        [Block.mk "b" "todo" "milk" (some ⟨none, some false, none⟩) []]] "b").map bFields ∧
    updateBlockInDocument
        [Block.mk "a" "paragraph" "hi" none
          [Block.mk "b" "todo" "milk" (some ⟨none, some false, none⟩) []]] "z"
        ⟨some "new", none, none⟩ =
      [Block.mk "a" "paragraph" "hi" none
        [Block.mk "b" "todo" "milk" (some ⟨none, some false, none⟩) []]]) := by
  have hfind : findById [Block.mk "a" "paragraph" "hi" none
      [Block.mk "b" "todo" "milk" (some ⟨none, some false, none⟩) []]] "z" = none := by
    simp [findById]
  refine ⟨⟨by decide, hfind⟩, ?_, ?_, ?_⟩
  · exact (updateById_frame _ _ _).1
  · exact (updateById_frame _ _ _).2.1 "b" (by decide)
  · exact (updateById_frame _ _ _).2.2 hfind

/-! ## Note aggregate: `toggleTodo`

The spec's Note Aggregate exposes `toggleTodo` (§4.3); src contains only its
UI analogue (the `TodoBlock` checkbox of the design plan), so the operation
itself is modelled from the spec. -/

/-- The `Note` of the design plan (part_001 `interface Note`), document a
recursive block tree; timestamps as abstract instants. -/
structure PNote where
  id : String
  title : String
  document : List Block
  createdAt : Nat
  updatedAt : Nat
  userId : String
  isPublic : Bool

/-- The aggregate's typed failure for a type-mismatched operation. -/
inductive AggregateError where
  | invalidOperation
deriving Repr, DecidableEq

/-- The metadata record with every attribute absent (type-appropriate
defaults apply: `checked = false`). -/
def emptyMetadata : BlockMetadata := ⟨none, none, none⟩

/-- Modelled from the spec: `toggleTodo(note, blockId)` (§4.3) — fails with
`InvalidOperation` if the target block is not of type `todo` (a missing
target is not a todo block either); otherwise flips `metadata.checked`
(absent metadata defaults to `checked = false`), delegating the field merge
to the Tree Engine's update, and bumps `updatedAt`. -/
def toggleTodo (note : PNote) (blockId : String) (now : Nat) :
    Except AggregateError PNote :=
  match findById note.document blockId with
  | none => .error .invalidOperation
  | some b =>
      if b.type = "todo" then
        .ok { note with
          document := updateBlockInDocument note.document blockId
            ⟨none, none,
              some { b.metadata.getD emptyMetadata with
                checked := some (!((b.metadata.getD emptyMetadata).checked.getD false)) }⟩,
          updatedAt := now }
      else .error .invalidOperation

/-- C9: with a target block present, `toggleTodo` fails with
`InvalidOperation` exactly when the block is not a todo; on a todo block it
succeeds, the block's `checked` flag is negated (an absent flag counts as
`false`), its type and content are untouched, and `updatedAt` is bumped. -/
theorem toggleTodo_spec (note : PNote) (bid : String) (now : Nat) (b : Block)
    (hfind : findById note.document bid = some b) :
    (b.type ≠ "todo" → toggleTodo note bid now = .error .invalidOperation) ∧
    (b.type = "todo" →
      ∃ note', toggleTodo note bid now = .ok note' ∧
        (findById note'.document bid).map bFields =
          some (b.type, b.content,
            some { b.metadata.getD emptyMetadata with
              checked := some (!((b.metadata.getD emptyMetadata).checked.getD false)) }) ∧
        note'.updatedAt = now ∧
        note'.id = note.id ∧ note'.userId = note.userId ∧
        note'.createdAt = note.createdAt) := by
  constructor
  · intro hnt
    simp only [toggleTodo, hfind]
    rw [if_neg hnt]
  · intro ht
    refine ⟨{ note with
        document := updateBlockInDocument note.document bid
          ⟨none, none,
            some { b.metadata.getD emptyMetadata with
              checked := some (!((b.metadata.getD emptyMetadata).checked.getD false)) }⟩,
        updatedAt := now }, ?_, ?_, rfl, rfl, rfl, rfl⟩
    · simp only [toggleTodo, hfind]
      rw [if_pos ht]
    · have hself := findById_update_self note.document bid
        ⟨none, none,
          some { b.metadata.getD emptyMetadata with
            checked := some (!((b.metadata.getD emptyMetadata).checked.getD false)) }⟩
      rw [hfind] at hself
      simpa [patchFields, bFields] using hself

/-- A concrete unchecked todo block for the C9 witness. -/
def demoTodoBlock : Block :=
  Block.mk "t1" "todo" "milk" (some ⟨none, some false, none⟩) []

/-- A concrete note holding a single unchecked todo block. -/
def demoTodoNote : PNote :=
  ⟨"n1", "Groceries", [demoTodoBlock], 0, 0, "u1", false⟩

/-- Witness for C9 on a note holding a single unchecked todo block. -/
theorem toggleTodo_spec_witness :
    findById demoTodoNote.document "t1" = some demoTodoBlock ∧
    ((demoTodoBlock.type ≠ "todo" →
        toggleTodo demoTodoNote "t1" 7 = .error .invalidOperation) ∧
      (demoTodoBlock.type = "todo" →
        ∃ note', toggleTodo demoTodoNote "t1" 7 = .ok note' ∧
          (findById note'.document "t1").map bFields =
            some (demoTodoBlock.type, demoTodoBlock.content,
              some { demoTodoBlock.metadata.getD emptyMetadata with
                checked :=
                  some (!((demoTodoBlock.metadata.getD emptyMetadata).checked.getD false)) }) ∧
          note'.updatedAt = 7 ∧
          note'.id = demoTodoNote.id ∧ note'.userId = demoTodoNote.userId ∧
          note'.createdAt = demoTodoNote.createdAt)) := by
  have hfind : findById demoTodoNote.document "t1" = some demoTodoBlock := by
    simp [demoTodoNote, demoTodoBlock, findById]
  exact ⟨hfind, toggleTodo_spec demoTodoNote "t1" 7 demoTodoBlock hfind⟩

/-! ## In-memory Go backend (backend/handlers/note.go)

The handlers keep a package-level `notes` slice and `nextID` counter.  The
`models.Note` struct they bind is referenced as `note/backend/models` but is
not among the staged files, so it is modelled from the spec's wire
representation (§6) with the integer id the handlers use.  Each handler is
embedded as a pure function from the store (and the decoded request) to the
new store and the response. -/

/-- Modelled from the spec: the `models.Note` struct bound by `note.go`
(absent from src); fields follow the wire representation
`id, title, document, isPublic, createdAt, updatedAt, userId` (§6), with
the integer id `note.go` assigns. -/
structure GoNote where
  id : Nat
  title : String
  document : List EBlock
  isPublic : Bool
  createdAt : Nat
  updatedAt : Nat
  userId : String
deriving Repr, DecidableEq

/-- The package-level mutable state of the handlers: `notes` and `nextID`. -/
structure GoStore where
  notes : List GoNote
  nextID : Nat
deriving Repr, DecidableEq

/-- The 4xx outcomes of the handlers. -/
inductive GoError where
  | titleRequired
  | notFound
deriving Repr, DecidableEq

/-- `CreateNote`: reject an empty title, then overwrite the server fields
`ID` (from `nextID`, which is incremented) and `CreatedAt`, and append.
The handler touches nothing else of the bound note: no `UpdatedAt` stamp,
no default document. -/
def goCreateNote (st : GoStore) (req : GoNote) (now : Nat) :
    GoStore × Except GoError GoNote :=
  if req.title = "" then (st, .error .titleRequired)
  else
    (⟨st.notes ++ [{ req with id := st.nextID, createdAt := now }], st.nextID + 1⟩,
      .ok { req with id := st.nextID, createdAt := now })

/-- The update loop of `UpdateNote`: replace the first note carrying the id
by the request note, preserving only its `ID` and `CreatedAt`. -/
def replaceNote : List GoNote → Nat → GoNote → Option (List GoNote × GoNote)
  | [], _, _ => none
  | n :: rest, i, req =>
      if n.id = i then
        some ({ req with id := i, createdAt := n.createdAt } :: rest,
          { req with id := i, createdAt := n.createdAt })
      else (replaceNote rest i req).map (fun p => (n :: p.1, p.2))

/-- `UpdateNote`: reject an empty title; replace the first matching note;
`NotFound` when no note carries the id. -/
def goUpdateNote (st : GoStore) (i : Nat) (req : GoNote) :
    GoStore × Except GoError GoNote :=
  if req.title = "" then (st, .error .titleRequired)
  else
    match replaceNote st.notes i req with
    | some p => (⟨p.1, st.nextID⟩, .ok p.2)
    | none => (st, .error .notFound)

/-- The delete loop of `DeleteNote`: remove the first note carrying the
id. -/
def removeNote : List GoNote → Nat → Option (List GoNote)
  | [], _ => none
  | n :: rest, i =>
      if n.id = i then some rest
      else (removeNote rest i).map (fun l => n :: l)

/-- `DeleteNote`: remove the first matching note; `False` result encodes the
404 branch. -/
def goDeleteNote (st : GoStore) (i : Nat) : GoStore × Bool :=
  match removeNote st.notes i with
  | some l => (⟨l, st.nextID⟩, true)
  | none => (st, false)

/-! ### C8: `UpdateNote` as `rename` -/

/-- Concrete store for the C8 theorems: one note, id 1, created at 3, last
updated at 5. -/
def demoStore : GoStore :=
  ⟨[⟨1, "Old", [], false, 3, 5, "u1"⟩], 2⟩

set_option maxRecDepth 4096 in
/-- C8.  The claim says rename fails with `ValidationError` when the new
title exceeds 255 characters; `UpdateNote` only rejects the empty title, so
a 256-character title is accepted — and the response carries the request's
`updatedAt` (9), not a fresh stamp (the stored note had 5 and the handler
never reads the clock). -/
theorem updateNote_no_length_cap_counterexample :
    (goUpdateNote demoStore 1
        ⟨0, String.mk (List.replicate 256 'a'), [], false, 0, 9, "u1"⟩).2 =
      .ok ⟨1, String.mk (List.replicate 256 'a'), [], false, 3, 9, "u1"⟩ ∧
    (String.mk (List.replicate 256 'a')).length = 256 := by
  constructor
  · rfl
  · decide

/-- `replaceNote` success names an existing note whose `ID` and `CreatedAt`
are preserved. -/
theorem replaceNote_some :
    ∀ (l : List GoNote) (i : Nat) (req : GoNote) (p : List GoNote × GoNote),
      replaceNote l i req = some p →
      ∃ old ∈ l, old.id = i ∧ p.2 = { req with id := i, createdAt := old.createdAt } := by
  intro l
  induction l with
  | nil => intro i req p h; exact absurd h (by simp [replaceNote])
  | cons n rest ih =>
      intro i req p h
      rw [replaceNote] at h
      by_cases hn : n.id = i
      · rw [if_pos hn] at h
        refine ⟨n, by simp, hn, ?_⟩
        have := (Option.some.inj h).symm
        rw [this]
      · rw [if_neg hn] at h
        cases hr : replaceNote rest i req with
        | none => rw [hr] at h; exact absurd h (by simp)
        | some q =>
            rw [hr] at h
            obtain ⟨old, hmem, hoid, hq⟩ := ih i req q hr
            refine ⟨old, by simp [hmem], hoid, ?_⟩
            have : p = (n :: q.1, q.2) := (Option.some.inj h).symm
            rw [this]
            exact hq

/-- C8 (amended): `UpdateNote` fails with the validation error exactly when
the new title is empty — there is no 255-character cap; on success the
stored note takes the request's `title`, `document`, `isPublic` and
`updatedAt` verbatim (the server does not re-stamp `updatedAt`), while `id`
and `createdAt` are preserved from the matched note. -/
theorem goUpdateNote_spec (st : GoStore) (i : Nat) (req : GoNote) :
    ((goUpdateNote st i req).2 = .error .titleRequired ↔ req.title = "") ∧
    (∀ u, (goUpdateNote st i req).2 = .ok u →
      u.title = req.title ∧ u.id = i ∧ u.updatedAt = req.updatedAt ∧
      u.document = req.document ∧ u.isPublic = req.isPublic ∧
      ∃ old ∈ st.notes, old.id = i ∧ u.createdAt = old.createdAt) := by
  constructor
  · by_cases ht : req.title = ""
    · rw [goUpdateNote, if_pos ht]
      simp [ht]
    · rw [goUpdateNote, if_neg ht]
      cases hr : replaceNote st.notes i req with
      | some p => simp [ht]
      | none => simp [ht]
  · intro u hu
    by_cases ht : req.title = ""
    · rw [goUpdateNote, if_pos ht] at hu
      exact absurd hu (by simp)
    · rw [goUpdateNote, if_neg ht] at hu
      cases hr : replaceNote st.notes i req with
      | none => rw [hr] at hu; exact absurd hu (by simp)
      | some p =>
          rw [hr] at hu
          have hup : p.2 = u := by
            have := Option.some.inj (by simpa using hu)
            exact this
          obtain ⟨old, hmem, hoid, hq⟩ := replaceNote_some st.notes i req p hr
          rw [hup] at hq
          rw [hq]
          exact ⟨rfl, rfl, rfl, rfl, rfl, old, hmem, hoid, rfl⟩

/-- Witness for C8 (amended) on the concrete store. -/
theorem goUpdateNote_spec_witness :
    ((goUpdateNote demoStore 1 ⟨0, "New", [], true, 0, 9, "u1"⟩).2 =
        .ok ⟨1, "New", [], true, 3, 9, "u1"⟩) ∧
    (((goUpdateNote demoStore 1 ⟨0, "New", [], true, 0, 9, "u1"⟩).2 =
        .error .titleRequired ↔ (GoNote.mk 0 "New" [] true 0 9 "u1").title = "") ∧
      ((GoNote.mk 1 "New" [] true 3 9 "u1").title =
          (GoNote.mk 0 "New" [] true 0 9 "u1").title ∧
        (GoNote.mk 1 "New" [] true 3 9 "u1").id = 1 ∧
        (GoNote.mk 1 "New" [] true 3 9 "u1").updatedAt =
          (GoNote.mk 0 "New" [] true 0 9 "u1").updatedAt ∧
        (GoNote.mk 1 "New" [] true 3 9 "u1").document =
          (GoNote.mk 0 "New" [] true 0 9 "u1").document ∧
        (GoNote.mk 1 "New" [] true 3 9 "u1").isPublic =
          (GoNote.mk 0 "New" [] true 0 9 "u1").isPublic ∧
        ∃ old ∈ demoStore.notes, old.id = 1 ∧
          (GoNote.mk 1 "New" [] true 3 9 "u1").createdAt = old.createdAt)) := by
  refine ⟨by rfl, (goUpdateNote_spec demoStore 1 ⟨0, "New", [], true, 0, 9, "u1"⟩).1, ?_⟩
  exact (goUpdateNote_spec demoStore 1 ⟨0, "New", [], true, 0, 9, "u1"⟩).2
    ⟨1, "New", [], true, 3, 9, "u1"⟩ (by rfl)

/-! ### C10: id assignment and distinctness -/

/-- A client call against the in-memory backend. -/
inductive Cmd where
  | create (req : GoNote) (now : Nat)
  | update (i : Nat) (req : GoNote)
  | delete (i : Nat)

/-- The store after one handler call (the store component of the handler
result). -/
def runCmd (st : GoStore) : Cmd → GoStore
  | .create req now => (goCreateNote st req now).1
  | .update i req => (goUpdateNote st i req).1
  | .delete i => (goDeleteNote st i).1

/-- The initial state of `note.go`: empty slice, `nextID = 1`. -/
def initStore : GoStore := ⟨[], 1⟩

/-- The store after a sequence of handler calls from the initial state. -/
def runCmds (cmds : List Cmd) : GoStore := cmds.foldl runCmd initStore

/-- The store invariant: ids strictly increase along the slice (hence are
pairwise distinct), every stored id is at least 1 and below `nextID`, and
`nextID` is at least 1. -/
def StoreInv (st : GoStore) : Prop :=
  st.notes.Pairwise (fun a b => a.id < b.id) ∧
  (∀ n ∈ st.notes, 1 ≤ n.id ∧ n.id < st.nextID) ∧
  1 ≤ st.nextID

/-- `replaceNote` keeps the id sequence of the slice untouched. -/
theorem replaceNote_map_id :
    ∀ (l : List GoNote) (i : Nat) (req : GoNote) (p : List GoNote × GoNote),
      replaceNote l i req = some p → p.1.map (·.id) = l.map (·.id) := by
  intro l
  induction l with
  | nil => intro i req p h; exact absurd h (by simp [replaceNote])
  | cons n rest ih =>
      intro i req p h
      rw [replaceNote] at h
      by_cases hn : n.id = i
      · rw [if_pos hn] at h
        have := (Option.some.inj h).symm
        rw [this]
        simp [hn]
      · rw [if_neg hn] at h
        cases hr : replaceNote rest i req with
        | none => rw [hr] at h; exact absurd h (by simp)
        | some q =>
            rw [hr] at h
            have := (Option.some.inj h).symm
            rw [this]
            simp [ih i req q hr]

/-- `removeNote` returns a sublist of the slice. -/
theorem removeNote_sublist :
    ∀ (l : List GoNote) (i : Nat) (l2 : List GoNote),
      removeNote l i = some l2 → List.Sublist l2 l := by
  intro l
  induction l with
  | nil => intro i l2 h; exact absurd h (by simp [removeNote])
  | cons n rest ih =>
      intro i l2 h
      rw [removeNote] at h
      by_cases hn : n.id = i
      · rw [if_pos hn] at h
        rw [(Option.some.inj h).symm]
        exact List.sublist_cons_self n rest
      · rw [if_neg hn] at h
        cases hr : removeNote rest i with
        | none => rw [hr] at h; exact absurd h (by simp)
        | some q =>
            rw [hr] at h
            rw [(Option.some.inj h).symm]
            exact (ih i q hr).cons₂ n

/-- Every handler call preserves the store invariant. -/
theorem runCmd_inv (st : GoStore) (c : Cmd) (h : StoreInv st) : StoreInv (runCmd st c) := by
  obtain ⟨hpw, hbound, hnext⟩ := h
  cases c with
  | create req now =>
      rw [runCmd, goCreateNote]
      by_cases ht : req.title = ""
      · rw [if_pos ht]
        exact ⟨hpw, hbound, hnext⟩
      · rw [if_neg ht]
        refine ⟨?_, ?_, by show 1 ≤ st.nextID + 1; omega⟩
        · rw [List.pairwise_append]
          refine ⟨hpw, by simp, ?_⟩
          intro a ha b hb
          have := (hbound a ha).2
          simp at hb
          rw [hb]
          show a.id < st.nextID
          exact this
        · intro n hn
          simp only [List.mem_append, List.mem_singleton] at hn
          cases hn with
          | inl hmem =>
              have := hbound n hmem
              refine ⟨this.1, ?_⟩
              show n.id < st.nextID + 1
              omega
          | inr hnew =>
              rw [hnew]
              refine ⟨?_, ?_⟩
              · show 1 ≤ st.nextID
                exact hnext
              · show st.nextID < st.nextID + 1
                omega
  | update i req =>
      rw [runCmd, goUpdateNote]
      by_cases ht : req.title = ""
      · rw [if_pos ht]
        exact ⟨hpw, hbound, hnext⟩
      · rw [if_neg ht]
        cases hr : replaceNote st.notes i req with
        | none => exact ⟨hpw, hbound, hnext⟩
        | some p =>
            have hid : p.1.map (·.id) = st.notes.map (·.id) :=
              replaceNote_map_id st.notes i req p hr
            refine ⟨?_, ?_, hnext⟩
            · have h1 : (st.notes.map (·.id)).Pairwise (· < ·) :=
                List.pairwise_map.mpr hpw
              have h2 : (p.1.map (·.id)).Pairwise (· < ·) := by rw [hid]; exact h1
              exact List.pairwise_map.mp h2
            · intro n hn
              have hmm : n.id ∈ p.1.map (·.id) := List.mem_map_of_mem _ hn
              rw [hid] at hmm
              obtain ⟨m, hm, hmid⟩ := List.mem_map.mp hmm
              have hmb := hbound m hm
              show 1 ≤ n.id ∧ n.id < st.nextID
              omega
  | delete i =>
      rw [runCmd, goDeleteNote]
      cases hr : removeNote st.notes i with
      | none => exact ⟨hpw, hbound, hnext⟩
      | some l2 =>
          have hsub : List.Sublist l2 st.notes := removeNote_sublist st.notes i l2 hr
          exact ⟨hpw.sublist hsub, fun n hn => hbound n (hsub.subset hn), hnext⟩

/-- C10: from the empty store, any sequence of handler calls keeps the
stored ids pairwise distinct (in fact strictly increasing along the slice)
and within `[1, nextID)`; and every accepted `CreateNote` assigns the note
the current `nextID`, appends it, and increments `nextID`. -/
theorem noteStore_invariant :
    (∀ cmds : List Cmd, StoreInv (runCmds cmds) ∧
      (runCmds cmds).notes.Pairwise (fun a b => a.id ≠ b.id)) ∧
    (∀ (st : GoStore) (req : GoNote) (now : Nat), req.title ≠ "" →
      (goCreateNote st req now).2 = .ok { req with id := st.nextID, createdAt := now } ∧
      (goCreateNote st req now).1.notes =
        st.notes ++ [{ req with id := st.nextID, createdAt := now }] ∧
      (goCreateNote st req now).1.nextID = st.nextID + 1) := by
  constructor
  · intro cmds
    have hinv : StoreInv (runCmds cmds) := by
      rw [runCmds]
      have hinit : StoreInv initStore := by
        refine ⟨by simp [initStore], by simp [initStore], by simp [initStore]⟩
      induction cmds using List.reverseRecOn with
      | nil => exact hinit
      | append_singleton cs c ih =>
          rw [List.foldl_append, List.foldl_cons, List.foldl_nil]
          exact runCmd_inv _ c ih
    refine ⟨hinv, hinv.1.imp ?_⟩
    intro a b hlt
    omega
  · intro st req now ht
    rw [goCreateNote, if_neg ht]
    exact ⟨rfl, rfl, rfl⟩

/-- Witness for C10: a two-call run, plus the create clause at the initial
store with a non-empty title. -/
theorem noteStore_invariant_witness :
    (StoreInv (runCmds [Cmd.create ⟨0, "Groceries", [], false, 0, 0, "u1"⟩ 5,
        Cmd.create ⟨0, "Ideas", [], false, 0, 0, "u1"⟩ 6]) ∧
      (runCmds [Cmd.create ⟨0, "Groceries", [], false, 0, 0, "u1"⟩ 5,
        Cmd.create ⟨0, "Ideas", [], false, 0, 0, "u1"⟩ 6]).notes.Pairwise
          (fun a b => a.id ≠ b.id)) ∧
    ((GoNote.mk 0 "Groceries" [] false 0 0 "u1").title ≠ "" ∧
      (goCreateNote initStore ⟨0, "Groceries", [], false, 0, 0, "u1"⟩ 5).2 =
        .ok { GoNote.mk 0 "Groceries" [] false 0 0 "u1" with
          id := initStore.nextID, createdAt := 5 } ∧
      (goCreateNote initStore ⟨0, "Groceries", [], false, 0, 0, "u1"⟩ 5).1.notes =
        initStore.notes ++ [{ GoNote.mk 0 "Groceries" [] false 0 0 "u1" with
          id := initStore.nextID, createdAt := 5 }] ∧
      (goCreateNote initStore ⟨0, "Groceries", [], false, 0, 0, "u1"⟩ 5).1.nextID =
        initStore.nextID + 1) := by
  refine ⟨noteStore_invariant.1 _, by decide, ?_⟩
  exact noteStore_invariant.2 initStore ⟨0, "Groceries", [], false, 0, 0, "u1"⟩ 5 (by decide)

/-! ## Planned service layer (part_000)

`noteService.CreateNote` of the backend design plan builds the note with a
single fresh empty paragraph block and hands it to the repository.  The
gorm column tags of its `models.Note` (`autoCreateTime`, `autoUpdateTime`,
`default:false`) stamp both timestamps at insert; `IsPublic` is absent from
the composite literal, so it carries the Go zero value `false`.  uuid
generation and the clock are passed as parameters; `uuid.Nil` is modelled
as the empty string. -/

/-- The failures of `noteService.CreateNote` that the embedding can hit. -/
inductive SvcError where
  | userNotFound
  | invalidBlock
deriving Repr, DecidableEq

/-- `models.Note` of the backend design plan: uuid identity, title, jsonb
document of recursive blocks, visibility, gorm-managed timestamps, owner. -/
structure SvcNote where
  id : String
  title : String
  document : List Block
  isPublic : Bool
  createdAt : Nat
  updatedAt : Nat
  userId : String

/-- `Block.Validate` of the design plan: id and type must be non-empty. -/
def validateBlock (b : Block) : Bool :=
  (b.id != "") && (b.type != "")

/-- `noteRepository.Create` combined with the gorm column tags: generate an
id when the note carries `uuid.Nil`, and stamp `CreatedAt` and `UpdatedAt`
with the insert time. -/
def repoCreate (genId : String) (now : Nat) (n : SvcNote) : SvcNote :=
  { n with id := if n.id = "" then genId else n.id, createdAt := now, updatedAt := now }

/-- `noteService.CreateNote`: require the user to exist, build the note
with a single fresh empty paragraph block (empty metadata map), validate
every block of the document, and hand the note to the repository. -/
def svcCreateNote (userExists : Bool) (userID title : String)
    (noteUUID blockUUID genId : String) (now : Nat) : Except SvcError SvcNote :=
  if !userExists then .error .userNotFound
  else
    let note : SvcNote :=
      { id := noteUUID, title := title, userId := userID,
        document := [Block.mk blockUUID "paragraph" "" (some emptyMetadata) []],
        isPublic := false, createdAt := 0, updatedAt := 0 }
    if note.document.all validateBlock then .ok (repoCreate genId now note)
    else .error .invalidBlock

/-- C6: creating a note (for an existing user, with a non-nil generated
block id) yields a document of exactly one empty paragraph block carrying
the fresh id, with `createdAt = updatedAt = now` and `isPublic = false`. -/
theorem svcCreateNote_spec (userID title noteUUID blockUUID genId : String) (now : Nat)
    (hb : blockUUID ≠ "") :
    svcCreateNote true userID title noteUUID blockUUID genId now =
      .ok { id := if noteUUID = "" then genId else noteUUID,
            title := title,
            document := [Block.mk blockUUID "paragraph" "" (some emptyMetadata) []],
            isPublic := false,
            createdAt := now,
            updatedAt := now,
            userId := userID } := by
  rw [svcCreateNote]
  have hval : validateBlock (Block.mk blockUUID "paragraph" "" (some emptyMetadata) []) = true := by
    simp [validateBlock, Block.id, Block.type, hb]
  simp [hval, repoCreate]

/-- Witness for C6 at concrete identities and clock. -/
theorem svcCreateNote_spec_witness :
    ("b1" : String) ≠ "" ∧
      svcCreateNote true "u1" "Groceries" "n1" "b1" "g1" 5 =
        .ok { id := if ("n1" : String) = "" then "g1" else "n1",
              title := "Groceries",
              document := [Block.mk "b1" "paragraph" "" (some emptyMetadata) []],
              isPublic := false,
              createdAt := 5,
              updatedAt := 5,
              userId := "u1" } :=
  ⟨by decide, svcCreateNote_spec "u1" "Groceries" "n1" "b1" "g1" 5 (by decide)⟩

end Notty
